import Mathlib

/-!
Verification of the detection-result aggregation pipeline of the
field-vue-backend repository (src/lib/detections.ts, function
`analyzeImagesForRoom` and its helpers `normalizeType`, `addToMap`,
`toNumber`), together with the room-state persistence it drives.

The embedding mirrors the TypeScript source:
* JavaScript objects used as string-keyed number maps (`CountsMap`)
  become insertion-ordered association lists (`QMap`); `addToMap`,
  key iteration (`Object.keys`) and `map[k] || 0` are translated
  literally.
* JavaScript numbers are modelled as exact rationals; a value that is
  `NaN` or `±Infinity` is modelled as `Option.none` at the points the
  source checks `Number.isFinite` (inside `toNumber`).  Overflow of
  exact arithmetic to `Infinity` cannot occur in the model.
* `parseFloat` and `String.prototype.toLowerCase` /
  `String.prototype.trim` are JavaScript builtins; they are modelled
  below (decimal literals for `parseFloat`, basic-latin case mapping
  for `toLowerCase`) and marked as such.
-/

namespace FieldVue

/-! ### JavaScript string builtins -/

/-- Whitespace characters recognised by the JavaScript regexp `\s` and
by `String.prototype.trim` (the common ASCII subset; models a builtin). -/
def isJsWs (c : Char) : Bool :=
  c = (' ') || c = ('\t') || c = ('\n') || c = ('\r') ||
  c = (Char.ofNat 11) || c = (Char.ofNat 12)

/-- Models the JavaScript builtin `String.prototype.trim` on the
character list of a string: drop whitespace from both ends. -/
def trimChars (l : List Char) : List Char :=
  ((l.dropWhile isJsWs).reverse.dropWhile isJsWs).reverse

/-- Models the JavaScript regexp replacement `.replace(/\s+/g, '_')`:
every maximal run of whitespace becomes a single underscore. -/
def collapseWs : List Char → List Char
  | [] => []
  | c :: rest =>
    if isJsWs c then ('_') :: collapseWs (rest.dropWhile isJsWs)
    else c :: collapseWs rest
termination_by l => l.length
decreasing_by
  · simp only [List.length_cons]
    exact Nat.lt_succ_of_le (List.dropWhile_sublist isJsWs).length_le
  · simp

/-- Models the JavaScript builtin `String.prototype.toLowerCase`
(basic-latin case mapping, which covers every label the pipeline
compares against). -/
def lowerStr (s : String) : String :=
  String.mk (s.toList.map Char.toLower)

/-- `String(type).trim().toLowerCase().replace(/\s+/g, '_')` from
`normalizeType` in src/lib/detections.ts. -/
def normalizeStr (s : String) : String :=
  String.mk (collapseWs ((trimChars s.toList).map Char.toLower))

/-- `normalizeType` from src/lib/detections.ts: `null`/`undefined`/empty
input (JavaScript falsy) gives `null`, otherwise the normalised string. -/
def normalizeType (t : Option String) : Option String :=
  match t with
  | none => none
  | some s => if s = "" then none else some (normalizeStr s)

/-- JavaScript `a || b` where `a : string | null` and `b : string`:
`null` and the empty string are falsy. -/
def jsOrStr (a : Option String) (b : String) : String :=
  match a with
  | none => b
  | some s => if s = "" then b else s

/-! ### JavaScript number builtins -/

/-- A JavaScript runtime value in one of the positions the pipeline
reads numbers from (`surface_area`, `estimated_width_feet`,
`estimated_height_feet`).  `vnum none` models a number that is `NaN` or
`±Infinity`; `vother` models any value that is neither a number, a
string, `null` nor `undefined` (the source coerces those to `NaN`). -/
inductive JsVal where
  | vnull
  | vundef
  | vnum (q : Option ℚ)
  | vstr (s : String)
  | vother
deriving DecidableEq

/-- Digits-to-number accumulator used by the `parseFloat` model. -/
def digitsToNat (l : List Char) : Nat :=
  l.foldl (fun n c => 10 * n + (c.toNat - 48)) 0

/-- Exponent part of the `parseFloat` model: parses `[eE][+-]?digits`
and returns the signed exponent, or `0` when the exponent part is
absent or malformed (JavaScript ignores a malformed exponent). -/
def parseExponent (l : List Char) : Int :=
  match l with
  | c :: rest =>
    if c = ('e') || c = ('E') then
      match rest with
      | ('+') :: ds => if (ds.takeWhile Char.isDigit) = [] then 0 else (digitsToNat (ds.takeWhile Char.isDigit) : Int)
      | ('-') :: ds => if (ds.takeWhile Char.isDigit) = [] then 0 else -(digitsToNat (ds.takeWhile Char.isDigit) : Int)
      | ds => if (ds.takeWhile Char.isDigit) = [] then 0 else (digitsToNat (ds.takeWhile Char.isDigit) : Int)
    else 0
  | [] => 0

/-- Models the JavaScript builtin `parseFloat` combined with the
`Number.isFinite` check that `toNumber` applies right after it:
`none` is returned when `parseFloat` yields `NaN` (no leading number)
or `±Infinity` (an explicit `Infinity` literal); otherwise the exact
rational value of the parsed decimal literal. -/
def parseFloatFinite (s : String) : Option ℚ :=
  let l := s.toList.dropWhile isJsWs
  let sign : ℚ := if l.head? = some ('-') then -1 else 1
  let l1 := if l.head? = some ('-') || l.head? = some ('+') then l.tail else l
  if l1.take 8 = ("Infinity").toList then none
  else
    let intDigits := l1.takeWhile Char.isDigit
    let afterInt := l1.drop intDigits.length
    let fracDigits :=
      if afterInt.head? = some ('.') then afterInt.tail.takeWhile Char.isDigit else []
    if intDigits = [] && fracDigits = [] then none
    else
      let afterFrac :=
        if afterInt.head? = some ('.') then afterInt.tail.drop fracDigits.length else afterInt
      let e := parseExponent afterFrac
      let mantissa : ℚ :=
        (digitsToNat intDigits : ℚ) + (digitsToNat fracDigits : ℚ) / ((10 : ℚ) ^ fracDigits.length)
      some (sign * mantissa * (10 : ℚ) ^ e)

/-- `toNumber` from src/lib/detections.ts: `null`/`undefined` give
`null`; strings go through `parseFloat`; numbers are taken as is; any
other value coerces to `NaN`; non-finite results give `null`. -/
def toNumber (v : JsVal) : Option ℚ :=
  match v with
  | .vnull => none
  | .vundef => none
  | .vstr s => parseFloatFinite s
  | .vnum q => q
  | .vother => none

/-! ### Insertion-ordered number maps (JavaScript objects) -/

/-- A JavaScript object used as a `Record<string, number>`, modelled as
an insertion-ordered association list (JavaScript objects enumerate
string keys in insertion order). -/
abbrev QMap := List (String × ℚ)

/-- Keys of the map in insertion order (`Object.keys`). -/
def keysQ (m : QMap) : List String := m.map (fun p => p.1)

/-- `m[k]` as an option: `none` models reading an absent property. -/
def lookupQ (m : QMap) (k : String) : Option ℚ :=
  (m.find? (fun p => p.1 == k)).map (fun p => p.2)

/-- `m[k] || 0`: the stored value, defaulting to `0` when absent. -/
def getQ (m : QMap) (k : String) : ℚ := (lookupQ m k).getD 0

/-- Property write `m[k] = v`: overwrite in place when the key exists,
append otherwise. -/
def setQ (m : QMap) (k : String) (v : ℚ) : QMap :=
  if m.any (fun p => p.1 == k) then
    m.map (fun p => if p.1 == k then (k, v) else p)
  else m ++ [(k, v)]

/-- `addToMap` from src/lib/detections.ts:
`if (!key) return; map[key] = (map[key] || 0) + v`.  The source also
guards the added value with `Number.isFinite`; in the exact-rational
model every value is finite, so that guard is identically true. -/
def addToMap (m : QMap) (k : String) (v : ℚ) : QMap :=
  if k = "" then m else setQ m k (getQ m k + v)

/-! ### Detection candidates and the per-image reducer

Embedding of the `for (const obj of json.objects)` loop body of
`analyzeImagesForRoom` (src/lib/detections.ts).  The source also tracks
a local `typeCounts` object there, but (after the per-photo count cap
was removed) never reads it, so it has no effect on any output and is
not modelled. -/

/-- One element of the detector's `objects[]` array, restricted to the
fields the loop body reads.  `confidence` is `none` when the field is
absent (`obj?.confidence` is `undefined`). -/
structure Cand where
  type : Option String
  name : Option String
  confidence : Option String
  surface_area : JsVal
  estimated_width_feet : JsVal
  estimated_height_feet : JsVal
deriving DecidableEq

/-- `normalizeType(obj?.type) || normalizeType(obj?.name) || 'object'`. -/
def rawKey (t n : Option String) : String :=
  jsOrStr (normalizeType t) (jsOrStr (normalizeType n) ("object"))

/-- The three synonym-folding conditionals applied to `typeKey`, in
source order: `wall`/`cladding` to `siding`, then
`masonry_foundation`/`brick_foundation` to `foundation`, then
`masonry`/`brick` to `siding`.  The source applies them for every
room type (the comment in the source mentions exterior, but no
conditional guards on `roomType`). -/
def canonicalizeKey (k0 : String) : String :=
  let k1 := if k0 = "wall" ∨ k0 = "cladding" then "siding" else k0
  let k2 := if k1 = "masonry_foundation" ∨ k1 = "brick_foundation" then "foundation" else k1
  if k2 = "masonry" ∨ k2 = "brick" then "siding" else k2

/-- The full canonicalizer as a function of the raw type and raw name
strings: normalization with fallbacks, then synonym folding. -/
def canonLabel (t n : Option String) : String := canonicalizeKey (rawKey t n)

/-- The `typeKey` the loop body computes for a candidate. -/
def typeKeyOf (c : Cand) : String := canonLabel c.type c.name

/-- `obj?.confidence?.toLowerCase()`. -/
def confLower (c : Cand) : Option String := c.confidence.map lowerStr

/-- The acceptance test of the loop body:
`confidence === 'high' || (isFoundationOrSiding && (confidence === 'medium' || confidence === 'low'))`
where `isFoundationOrSiding` is computed from the canonical `typeKey`.
No `roomType` condition appears in the source. -/
def acceptedCand (c : Cand) : Bool :=
  let k := typeKeyOf c
  (confLower c == some ("high")) ||
    (((k == "foundation") || (k == "siding")) &&
      ((confLower c == some ("medium")) || (confLower c == some ("low"))))

/-- The area the loop body adds for an accepted candidate: `none` means
no `addToMap` call is made on the area map (`surface_area` did not
parse and the width/height product is unavailable). -/
def resolveArea (c : Cand) : Option ℚ :=
  match toNumber c.surface_area with
  | some a => some a
  | none =>
    match toNumber c.estimated_width_feet, toNumber c.estimated_height_feet with
    | some w, some h => some (w * h)
    | _, _ => none

/-- One iteration of the candidate loop over the pair
(countsByType, areaSqftByType). -/
def stepCand (mm : QMap × QMap) (c : Cand) : QMap × QMap :=
  if acceptedCand c then
    (addToMap mm.1 (typeKeyOf c) 1,
     match resolveArea c with
     | some a => addToMap mm.2 (typeKeyOf c) a
     | none => mm.2)
  else mm

/-- The per-image reducer: the candidate loop started from two empty
maps. -/
def processCands (cs : List Cand) : QMap × QMap := cs.foldl stepCand ([], [])

/-! ### One image, the analysis loop, and the room aggregate -/

/-- The part of a detection response the aggregation reads:
`objects` is `none` when `Array.isArray(json?.objects)` fails
(the maps then stay empty).  The `scene`/`summary`/`room_dimensions`
fields are copied through to storage but never aggregated per type, so
they are not modelled. -/
structure DetJson where
  objects : Option (List Cand)
deriving DecidableEq

/-- Outcome of `callDetectionApi` for one image URL: a parsed payload,
or a thrown error (failed fetch, non-2xx detection response, …). -/
inductive FetchResult where
  | ok (j : DetJson)
  | fail (msg : String)
deriving DecidableEq

/-- `true` exactly on successful outcomes. -/
def FetchResult.isOk : FetchResult → Bool
  | .ok _ => true
  | .fail _ => false

/-- The per-image maps for a payload. -/
def imageMaps (j : DetJson) : QMap × QMap :=
  match j.objects with
  | some cs => processCands cs
  | none => ([], [])

/-- One element of the `perImage` array the source builds: the image
URL, its two summary maps, and whether the entry is the error marker
pushed by the per-image `catch` block (which uses two empty maps). -/
structure ImgEntry where
  url : String
  countsByType : QMap
  areaSqftByType : QMap
  isError : Bool
deriving DecidableEq

/-- The `perImage` entry for one input: the summary maps on success,
the error marker with empty maps on failure. -/
def entryOf (p : String × FetchResult) : ImgEntry :=
  match p.2 with
  | .ok j => ⟨p.1, (imageMaps j).1, (imageMaps j).2, false⟩
  | .fail _ => ⟨p.1, [], [], true⟩

/-- `for (const k of Object.keys(m)) addToMap(total, k, m[k])`. -/
def mergeInto (total : QMap) (m : QMap) : QMap :=
  (keysQ m).foldl (fun t k => addToMap t k (getQ m k)) total

/-- One iteration of the `for (const url of imageUrls)` loop: push the
per-image entry and fold its maps into the running totals.  On the
error path the entry's maps are empty and `mergeInto` with an empty map
is the identity, matching the `catch` block, which skips accumulation. -/
def loopStep (acc : List ImgEntry × QMap × QMap) (p : String × FetchResult) :
    List ImgEntry × QMap × QMap :=
  (acc.1 ++ [entryOf p], mergeInto acc.2.1 (entryOf p).countsByType,
   mergeInto acc.2.2 (entryOf p).areaSqftByType)

/-- The analysis loop over all images of the batch, starting from an
empty `perImage` array and empty totals. -/
def analyzeLoop (inputs : List (String × FetchResult)) :
    List ImgEntry × QMap × QMap :=
  inputs.foldl loopStep ([], [], [])

/-- JavaScript `new Set(list)` iteration order: first occurrences, in
order. -/
def dedupFirst : List String → List String
  | [] => []
  | k :: ks => k :: dedupFirst (ks.filter (fun x => x ≠ k))
termination_by l => l.length
decreasing_by
  simp only [List.length_cons]
  exact Nat.lt_succ_of_le (List.length_filter_le _ ks)

/-- The `measurements.aggregates` payload written to the room row:
the consolidated `items` list plus the two total maps. -/
structure RunResult where
  perImage : List ImgEntry
  totalCounts : QMap
  totalArea : QMap
  items : List (String × ℚ × ℚ)
deriving DecidableEq

/-- The successful path of `analyzeImagesForRoom roomId imageUrls roomType`,
as a function of the per-image fetch outcomes.  `roomType` is threaded
through because the source takes it, but the source only forwards it to
the detection request (`?type=${roomType}`) and into the stored `model`
metadata; no aggregation step reads it. -/
def runAnalyze (roomType : String) (inputs : List (String × FetchResult)) : RunResult :=
  let loop := analyzeLoop inputs
  let allTypes := dedupFirst (keysQ loop.2.1 ++ keysQ loop.2.2)
  ⟨loop.1, loop.2.1, loop.2.2,
   allTypes.map (fun ty => (ty, getQ loop.2.1 ty, getQ loop.2.2 ty))⟩

/-! ### Persisted room state -/

/-- A row of the `room_images` table as the aggregation reads/writes
it: the image URL and the two summary maps of its stored
`measurements` JSON. -/
structure PerImageRecord where
  imageUrl : String
  countsByType : QMap
  areaSqftByType : QMap
deriving DecidableEq

/-- Modelled from the spec: the `roomImages` table definition lives in
src/db/schema.ts, which is not part of the sources; the spec states
that per-image measurement records are "keyed by room+image URL, upsert
semantics", which matches the source's insert-then-update-on-conflict
sequence.  Upsert of one record by image URL. -/
def upsertRecord (recs : List PerImageRecord) (url : String) (mm : QMap × QMap) :
    List PerImageRecord :=
  if recs.any (fun r => r.imageUrl == url) then
    recs.map (fun r => if r.imageUrl == url then ⟨url, mm.1, mm.2⟩ else r)
  else recs ++ [⟨url, mm.1, mm.2⟩]

/-- Persisted state of one room: its `room_images` rows and the
`aggregates` maps of the room row's `measurements` column. -/
structure RoomState where
  records : List PerImageRecord
  aggCounts : QMap
  aggArea : QMap
deriving DecidableEq

/-- Effect of one image of the batch on the `room_images` rows: a
successfully analysed image upserts its row, a failed image writes
nothing (its `catch` block skips the insert/update). -/
def upStep (recs : List PerImageRecord) (p : String × FetchResult) :
    List PerImageRecord :=
  match p.2 with
  | .ok j => upsertRecord recs p.1 (imageMaps j)
  | .fail _ => recs

/-- Effect of one successful `analyzeImagesForRoom` run on the room
state: each successfully analysed image upserts its `room_images` row
(a failed image writes nothing), and the room row's aggregate maps are
replaced by the totals of this run. -/
def applyAnalyze (st : RoomState) (roomType : String)
    (inputs : List (String × FetchResult)) : RoomState :=
  ⟨inputs.foldl upStep st.records,
   (runAnalyze roomType inputs).totalCounts, (runAnalyze roomType inputs).totalArea⟩

/-- Sum of one type's stored per-image counts over all `room_images`
rows of the room. -/
def recordsCountSum (recs : List PerImageRecord) (t : String) : ℚ :=
  (recs.map (fun r => getQ r.countsByType t)).sum

/-! ### The outer try/catch of the background task -/

/-- The body of `analyzeImagesForRoom` up to and including the final
`db.update(rooms)`: the aggregate is computed in full and then written
atomically; a thrown persistence error leaves the previous value in
place.  `persistFails` injects that failure. -/
def analyzeAttempt (roomType : String) (inputs : List (String × FetchResult))
    (persistFails : Bool) : Except String RunResult :=
  if persistFails then .error ("db update failed") else .ok (runAnalyze roomType inputs)

/-- `analyzeImagesForRoom` including its outer `catch`: on any error the
handler logs and returns, so the caller observes no error (`none` in
the second component) and the stored aggregate keeps its previous
value. -/
def analyzeTask (prev : Option RunResult) (roomType : String)
    (inputs : List (String × FetchResult)) (persistFails : Bool) :
    Option RunResult × Option String :=
  match analyzeAttempt roomType inputs persistFails with
  | .ok rr => (some rr, none)
  | .error _ => (prev, none)

/-! ### Map lemmas -/

theorem lookupQ_eq_none_iff (m : QMap) (t : String) :
    lookupQ m t = none ↔ t ∉ keysQ m := by
  unfold lookupQ keysQ
  rw [Option.map_eq_none', List.find?_eq_none]
  constructor
  · intro h hmem
    rcases List.mem_map.mp hmem with ⟨p, hp, rfl⟩
    exact h p hp (by simp)
  · intro h p hp hb
    exact h (List.mem_map.mpr ⟨p, hp, by simpa using hb⟩)

theorem mem_keysQ_of_lookupQ (m : QMap) (t : String) (v : ℚ)
    (h : lookupQ m t = some v) : t ∈ keysQ m := by
  by_contra hmem
  rw [← lookupQ_eq_none_iff] at hmem
  rw [hmem] at h
  exact Option.noConfusion h

theorem find?_setMap_self (m : QMap) (k : String) (v : ℚ) :
    (m.map (fun p => if p.1 == k then (k, v) else p)).find? (fun p => p.1 == k)
      = if m.any (fun p => p.1 == k) then some (k, v) else none := by
  induction m with
  | nil => rfl
  | cons p rest ih =>
    rw [List.map_cons, List.any_cons]
    by_cases hp : p.1 = k
    · have h1 : (if p.1 == k then (k, v) else p) = (k, v) := by simp [hp]
      rw [h1, List.find?_cons_of_pos _ (by simp),
        if_pos (show (p.1 == k || rest.any fun p => p.1 == k) = true by simp [hp])]
    · have h1 : (if p.1 == k then (k, v) else p) = p := by simp [hp]
      have h2 : (p.1 == k || rest.any fun p => p.1 == k)
          = rest.any fun p => p.1 == k := by simp [hp]
      rw [h1, List.find?_cons_of_neg _ (by simp [hp]), ih, h2]

theorem find?_setMap_ne (m : QMap) (k t : String) (v : ℚ) (h : t ≠ k) :
    (m.map (fun p => if p.1 == k then (k, v) else p)).find? (fun p => p.1 == t)
      = m.find? (fun p => p.1 == t) := by
  induction m with
  | nil => rfl
  | cons p rest ih =>
    rw [List.map_cons]
    by_cases hp : p.1 = k
    · have h1 : (if p.1 == k then (k, v) else p) = (k, v) := by simp [hp]
      have hkt : ¬ ((k, v).1 == t) = true := by
        simp only [beq_iff_eq]
        exact fun h' => h h'.symm
      have hpt : ¬ (p.1 == t) = true := by
        simp only [beq_iff_eq, hp]
        exact fun h' => h h'.symm
      have e1 : List.find? (fun q => q.1 == t)
          (((k, v) : String × ℚ) :: rest.map (fun p => if p.1 == k then (k, v) else p))
          = List.find? (fun q => q.1 == t)
            (rest.map (fun p => if p.1 == k then (k, v) else p)) :=
        List.find?_cons_of_neg _ hkt
      have e2 : List.find? (fun q => q.1 == t) (p :: rest)
          = List.find? (fun q => q.1 == t) rest :=
        List.find?_cons_of_neg _ hpt
      rw [h1, e1, e2]
      exact ih
    · have h1 : (if p.1 == k then (k, v) else p) = p := by simp [hp]
      by_cases hq : p.1 = t
      · rw [h1, List.find?_cons_of_pos _ (by simp [hq]),
          List.find?_cons_of_pos _ (by simp [hq])]
      · rw [h1, List.find?_cons_of_neg _ (by simp [hq]),
          List.find?_cons_of_neg _ (by simp [hq]), ih]

theorem lookupQ_setQ_self (m : QMap) (k : String) (v : ℚ) :
    lookupQ (setQ m k v) k = some v := by
  unfold setQ
  by_cases h : m.any (fun p => p.1 == k)
  · rw [if_pos h]
    unfold lookupQ
    rw [find?_setMap_self, if_pos h]
    rfl
  · rw [if_neg h]
    have hnone : m.find? (fun p => p.1 == k) = none := by
      rw [List.find?_eq_none]
      intro p hp hb
      exact h (List.any_eq_true.mpr ⟨p, hp, hb⟩)
    simp [lookupQ, List.find?_append, hnone]

theorem lookupQ_setQ_ne (m : QMap) (k t : String) (v : ℚ) (h : t ≠ k) :
    lookupQ (setQ m k v) t = lookupQ m t := by
  unfold setQ
  by_cases hm : m.any (fun p => p.1 == k)
  · rw [if_pos hm]
    unfold lookupQ
    rw [find?_setMap_ne m k t v h]
  · rw [if_neg hm]
    unfold lookupQ
    rw [List.find?_append]
    have : ([(k, v)] : QMap).find? (fun p => p.1 == t) = none := by
      simp [Ne.symm h]
    rw [this]
    simp

theorem any_keyQ_iff (m : QMap) (k : String) :
    (m.any (fun p => p.1 == k) = true) ↔ k ∈ keysQ m := by
  rw [List.any_eq_true]
  constructor
  · rintro ⟨p, hp, hb⟩
    exact List.mem_map.mpr ⟨p, hp, by simpa using hb⟩
  · intro hk
    rcases List.mem_map.mp hk with ⟨p, hp, rfl⟩
    exact ⟨p, hp, by simp⟩

theorem keysQ_setQ (m : QMap) (k : String) (v : ℚ) :
    keysQ (setQ m k v) = if k ∈ keysQ m then keysQ m else keysQ m ++ [k] := by
  unfold setQ
  by_cases h : m.any (fun p => p.1 == k)
  · rw [if_pos h, if_pos ((any_keyQ_iff m k).mp h)]
    unfold keysQ
    rw [List.map_map]
    apply List.map_congr_left
    intro p _
    by_cases hp : p.1 = k
    · rw [Function.comp_apply, if_pos (show (p.1 == k) = true by simp [hp])]
      exact hp.symm
    · rw [Function.comp_apply, if_neg (show ¬ (p.1 == k) = true by simp [hp])]
  · rw [if_neg h, if_neg (fun hk => h ((any_keyQ_iff m k).mpr hk))]
    unfold keysQ
    rw [List.map_append]
    rfl

/-! `addToMap` level -/

theorem lookupQ_addToMap (m : QMap) (k t : String) (v : ℚ) (hk : k ≠ "") :
    lookupQ (addToMap m k v) t =
      if t = k then some (getQ m k + v) else lookupQ m t := by
  unfold addToMap
  rw [if_neg hk]
  by_cases ht : t = k
  · rw [if_pos ht, ht, lookupQ_setQ_self]
  · rw [if_neg ht, lookupQ_setQ_ne m k t _ ht]

theorem getQ_addToMap (m : QMap) (k t : String) (v : ℚ) :
    getQ (addToMap m k v) t = getQ m t + (if t = k ∧ k ≠ "" then v else 0) := by
  by_cases hk : k = ""
  · simp [addToMap, hk]
  · by_cases ht : t = k
    · rw [getQ, lookupQ_addToMap m k t v hk, if_pos ht, if_pos ⟨ht, hk⟩, ht]
      rfl
    · rw [getQ, lookupQ_addToMap m k t v hk, if_neg ht,
        if_neg (fun hc => ht hc.1)]
      simp [getQ]

theorem keysQ_addToMap (m : QMap) (k : String) (v : ℚ) :
    keysQ (addToMap m k v) =
      if k = "" ∨ k ∈ keysQ m then keysQ m else keysQ m ++ [k] := by
  unfold addToMap
  by_cases hk : k = ""
  · rw [if_pos hk, if_pos (Or.inl hk)]
  · rw [if_neg hk, keysQ_setQ]
    by_cases hm : k ∈ keysQ m
    · rw [if_pos hm, if_pos (Or.inr hm)]
    · rw [if_neg hm, if_neg (by rintro (h | h); exact hk h; exact hm h)]

theorem mem_keysQ_addToMap (m : QMap) (k t : String) (v : ℚ) :
    t ∈ keysQ (addToMap m k v) ↔ t ∈ keysQ m ∨ (t = k ∧ k ≠ "") := by
  rw [keysQ_addToMap]
  by_cases hcase : k = "" ∨ k ∈ keysQ m
  · rw [if_pos hcase]
    constructor
    · exact Or.inl
    · rintro (h | ⟨rfl, hne⟩)
      · exact h
      · rcases hcase with h | h
        · exact absurd h hne
        · exact h
  · rw [if_neg hcase]
    push_neg at hcase
    simp only [List.mem_append, List.mem_singleton]
    constructor
    · rintro (h | rfl)
      · exact Or.inl h
      · exact Or.inr ⟨rfl, hcase.1⟩
    · rintro (h | ⟨rfl, _⟩)
      · exact Or.inl h
      · exact Or.inr rfl

theorem nodup_keysQ_addToMap (m : QMap) (k : String) (v : ℚ)
    (h : (keysQ m).Nodup) : (keysQ (addToMap m k v)).Nodup := by
  rw [keysQ_addToMap]
  by_cases hcase : k = "" ∨ k ∈ keysQ m
  · rwa [if_pos hcase]
  · rw [if_neg hcase]
    push_neg at hcase
    simpa [List.nodup_append] using ⟨h, hcase.2⟩

theorem empty_not_mem_keysQ_addToMap (m : QMap) (k : String) (v : ℚ)
    (h : ("" : String) ∉ keysQ m) : ("" : String) ∉ keysQ (addToMap m k v) := by
  rw [mem_keysQ_addToMap]
  rintro (hc | ⟨rfl, hne⟩)
  · exact h hc
  · exact hne rfl

/-! ### Keys produced by the pipeline are nonempty strings -/

theorem jsOrStr_ne_empty (a : Option String) (b : String) (hb : b ≠ "") :
    jsOrStr a b ≠ "" := by
  cases a with
  | none => exact hb
  | some s =>
    show (if s = "" then b else s) ≠ ""
    by_cases hs : s = ""
    · rw [if_pos hs]; exact hb
    · rw [if_neg hs]; exact hs

/-- Closed form of the three sequential synonym conditionals. -/
theorem canonicalizeKey_eq (k0 : String) :
    canonicalizeKey k0 =
      if k0 = "wall" ∨ k0 = "cladding" ∨ k0 = "masonry" ∨ k0 = "brick" then "siding"
      else if k0 = "masonry_foundation" ∨ k0 = "brick_foundation" then "foundation"
      else k0 := by
  unfold canonicalizeKey
  by_cases h1 : k0 = "wall" ∨ k0 = "cladding" <;>
    by_cases h2 : k0 = "masonry_foundation" ∨ k0 = "brick_foundation" <;>
    by_cases h3 : k0 = "masonry" ∨ k0 = "brick" <;>
    (try (rcases h2 with rfl | rfl)) <;> simp_all

theorem canonicalizeKey_ne_empty (k : String) (h : k ≠ "") :
    canonicalizeKey k ≠ "" := by
  rw [canonicalizeKey_eq]
  split_ifs <;> simp_all

theorem rawKey_ne_empty (t n : Option String) : rawKey t n ≠ "" :=
  jsOrStr_ne_empty _ _ (jsOrStr_ne_empty _ _ (by decide))

theorem typeKeyOf_ne_empty (c : Cand) : typeKeyOf c ≠ "" :=
  canonicalizeKey_ne_empty _ (rawKey_ne_empty c.type c.name)

/-! ### Characterisation of the per-image reducer -/

/-- What one candidate contributes to the count of type `t`. -/
def candCount (t : String) (c : Cand) : ℚ :=
  if acceptedCand c ∧ typeKeyOf c = t then 1 else 0

/-- What one candidate contributes to the area sum of type `t`. -/
def candArea (t : String) (c : Cand) : ℚ :=
  if acceptedCand c ∧ typeKeyOf c = t then (resolveArea c).getD 0 else 0

theorem getQ_stepCand_fst (mm : QMap × QMap) (c : Cand) (t : String) :
    getQ (stepCand mm c).1 t = getQ mm.1 t + candCount t c := by
  unfold stepCand candCount
  by_cases ha : acceptedCand c
  · rw [if_pos ha]
    show getQ (addToMap mm.1 (typeKeyOf c) 1) t = _
    rw [getQ_addToMap]
    by_cases ht : t = typeKeyOf c
    · rw [if_pos ⟨ht, typeKeyOf_ne_empty c⟩, if_pos ⟨ha, ht.symm⟩]
    · rw [if_neg (fun hc => ht hc.1), if_neg (fun hc => ht hc.2.symm)]
  · rw [if_neg ha, if_neg (fun hc => ha hc.1), add_zero]

theorem getQ_stepCand_snd (mm : QMap × QMap) (c : Cand) (t : String) :
    getQ (stepCand mm c).2 t = getQ mm.2 t + candArea t c := by
  unfold stepCand candArea
  by_cases ha : acceptedCand c
  · rw [if_pos ha]
    match hr : resolveArea c with
    | some a =>
      show getQ (addToMap mm.2 (typeKeyOf c) a) t = _
      rw [getQ_addToMap]
      by_cases ht : t = typeKeyOf c
      · rw [if_pos ⟨ht, typeKeyOf_ne_empty c⟩, if_pos ⟨ha, ht.symm⟩]
        rfl
      · rw [if_neg (fun hc => ht hc.1), if_neg (fun hc => ht hc.2.symm)]
    | none =>
      show getQ mm.2 t = _
      by_cases ht : acceptedCand c ∧ typeKeyOf c = t
      · rw [if_pos ht]
        simp
      · rw [if_neg ht, add_zero]
  · rw [if_neg ha, if_neg (fun hc => ha hc.1), add_zero]

theorem getQ_foldl_stepCand_fst (cs : List Cand) (mm : QMap × QMap) (t : String) :
    getQ (cs.foldl stepCand mm).1 t = getQ mm.1 t + (cs.map (candCount t)).sum := by
  induction cs generalizing mm with
  | nil => simp
  | cons c rest ih =>
    rw [List.foldl_cons, List.map_cons, List.sum_cons, ih (stepCand mm c),
      getQ_stepCand_fst]
    ring

theorem getQ_foldl_stepCand_snd (cs : List Cand) (mm : QMap × QMap) (t : String) :
    getQ (cs.foldl stepCand mm).2 t = getQ mm.2 t + (cs.map (candArea t)).sum := by
  induction cs generalizing mm with
  | nil => simp
  | cons c rest ih =>
    rw [List.foldl_cons, List.map_cons, List.sum_cons, ih (stepCand mm c),
      getQ_stepCand_snd]
    ring

/-- Count of type `t` in the per-image counts map, as a sum over all
candidates. -/
theorem getQ_processCands_fst (cs : List Cand) (t : String) :
    getQ (processCands cs).1 t = (cs.map (candCount t)).sum := by
  unfold processCands
  rw [getQ_foldl_stepCand_fst]
  show getQ [] t + _ = _
  rw [getQ]
  simp [lookupQ]

/-- Area sum of type `t` in the per-image area map, as a sum over all
candidates. -/
theorem getQ_processCands_snd (cs : List Cand) (t : String) :
    getQ (processCands cs).2 t = (cs.map (candArea t)).sum := by
  unfold processCands
  rw [getQ_foldl_stepCand_snd]
  show getQ [] t + _ = _
  rw [getQ]
  simp [lookupQ]

theorem mem_keys_stepCand_fst (mm : QMap × QMap) (c : Cand) (t : String) :
    t ∈ keysQ (stepCand mm c).1 ↔
      t ∈ keysQ mm.1 ∨ (acceptedCand c = true ∧ typeKeyOf c = t) := by
  unfold stepCand
  by_cases ha : acceptedCand c
  · rw [if_pos ha]
    show t ∈ keysQ (addToMap mm.1 (typeKeyOf c) 1) ↔ _
    rw [mem_keysQ_addToMap]
    constructor
    · rintro (h | ⟨rfl, _⟩)
      · exact Or.inl h
      · exact Or.inr ⟨ha, rfl⟩
    · rintro (h | ⟨_, rfl⟩)
      · exact Or.inl h
      · exact Or.inr ⟨rfl, typeKeyOf_ne_empty c⟩
  · rw [if_neg ha]
    constructor
    · exact Or.inl
    · rintro (h | ⟨hacc, _⟩)
      · exact h
      · exact absurd hacc ha

theorem mem_keys_stepCand_snd (mm : QMap × QMap) (c : Cand) (t : String) :
    t ∈ keysQ (stepCand mm c).2 ↔
      t ∈ keysQ mm.2 ∨
        (acceptedCand c = true ∧ typeKeyOf c = t ∧ (resolveArea c).isSome = true) := by
  unfold stepCand
  by_cases ha : acceptedCand c
  · rw [if_pos ha]
    match hr : resolveArea c with
    | some a =>
      show t ∈ keysQ (addToMap mm.2 (typeKeyOf c) a) ↔ _
      rw [mem_keysQ_addToMap]
      constructor
      · rintro (h | ⟨rfl, _⟩)
        · exact Or.inl h
        · exact Or.inr ⟨ha, rfl, rfl⟩
      · rintro (h | ⟨_, rfl, _⟩)
        · exact Or.inl h
        · exact Or.inr ⟨rfl, typeKeyOf_ne_empty c⟩
    | none =>
      show t ∈ keysQ mm.2 ↔ _
      constructor
      · exact Or.inl
      · rintro (h | ⟨_, _, hsome⟩)
        · exact h
        · exact absurd hsome (by simp)
  · rw [if_neg ha]
    constructor
    · exact Or.inl
    · rintro (h | ⟨hacc, _⟩)
      · exact h
      · exact absurd hacc ha

theorem mem_keys_foldl_stepCand_fst (cs : List Cand) (mm : QMap × QMap) (t : String) :
    t ∈ keysQ (cs.foldl stepCand mm).1 ↔
      t ∈ keysQ mm.1 ∨ ∃ c ∈ cs, acceptedCand c = true ∧ typeKeyOf c = t := by
  induction cs generalizing mm with
  | nil => simp
  | cons c rest ih =>
    rw [List.foldl_cons, ih (stepCand mm c), mem_keys_stepCand_fst]
    constructor
    · rintro ((h | hc) | ⟨c', hmem, hc'⟩)
      · exact Or.inl h
      · exact Or.inr ⟨c, List.mem_cons_self c rest, hc⟩
      · exact Or.inr ⟨c', List.mem_cons_of_mem c hmem, hc'⟩
    · rintro (h | ⟨c', hmem, hc'⟩)
      · exact Or.inl (Or.inl h)
      · rcases List.mem_cons.mp hmem with rfl | hmem'
        · exact Or.inl (Or.inr hc')
        · exact Or.inr ⟨c', hmem', hc'⟩

theorem mem_keys_foldl_stepCand_snd (cs : List Cand) (mm : QMap × QMap) (t : String) :
    t ∈ keysQ (cs.foldl stepCand mm).2 ↔
      t ∈ keysQ mm.2 ∨
        ∃ c ∈ cs, acceptedCand c = true ∧ typeKeyOf c = t ∧ (resolveArea c).isSome = true := by
  induction cs generalizing mm with
  | nil => simp
  | cons c rest ih =>
    rw [List.foldl_cons, ih (stepCand mm c), mem_keys_stepCand_snd]
    constructor
    · rintro ((h | hc) | ⟨c', hmem, hc'⟩)
      · exact Or.inl h
      · exact Or.inr ⟨c, List.mem_cons_self c rest, hc⟩
      · exact Or.inr ⟨c', List.mem_cons_of_mem c hmem, hc'⟩
    · rintro (h | ⟨c', hmem, hc'⟩)
      · exact Or.inl (Or.inl h)
      · rcases List.mem_cons.mp hmem with rfl | hmem'
        · exact Or.inl (Or.inr hc')
        · exact Or.inr ⟨c', hmem', hc'⟩

theorem mem_keys_processCands_fst (cs : List Cand) (t : String) :
    t ∈ keysQ (processCands cs).1 ↔
      ∃ c ∈ cs, acceptedCand c = true ∧ typeKeyOf c = t := by
  unfold processCands
  rw [mem_keys_foldl_stepCand_fst]
  simp [keysQ]

theorem mem_keys_processCands_snd (cs : List Cand) (t : String) :
    t ∈ keysQ (processCands cs).2 ↔
      ∃ c ∈ cs, acceptedCand c = true ∧ typeKeyOf c = t ∧ (resolveArea c).isSome = true := by
  unfold processCands
  rw [mem_keys_foldl_stepCand_snd]
  simp [keysQ]

/-! ### Well-formedness: the maps built by the pipeline have nonempty,
duplicate-free keys -/

/-- Key discipline of every JavaScript object the pipeline builds with
`addToMap`. -/
def WFmap (m : QMap) : Prop :=
  (keysQ m).Nodup ∧ ("" : String) ∉ keysQ m

theorem WFmap_nil : WFmap [] := by constructor <;> simp [keysQ]

theorem WFmap_addToMap (m : QMap) (k : String) (v : ℚ) (h : WFmap m) :
    WFmap (addToMap m k v) :=
  ⟨nodup_keysQ_addToMap m k v h.1, empty_not_mem_keysQ_addToMap m k v h.2⟩

theorem WFmap_stepCand (mm : QMap × QMap) (c : Cand)
    (h1 : WFmap mm.1) (h2 : WFmap mm.2) :
    WFmap (stepCand mm c).1 ∧ WFmap (stepCand mm c).2 := by
  unfold stepCand
  by_cases ha : acceptedCand c
  · rw [if_pos ha]
    refine ⟨WFmap_addToMap _ _ _ h1, ?_⟩
    match resolveArea c with
    | some a => exact WFmap_addToMap _ _ _ h2
    | none => exact h2
  · rw [if_neg ha]
    exact ⟨h1, h2⟩

theorem WFmap_foldl_stepCand (cs : List Cand) (mm : QMap × QMap)
    (h1 : WFmap mm.1) (h2 : WFmap mm.2) :
    WFmap (cs.foldl stepCand mm).1 ∧ WFmap (cs.foldl stepCand mm).2 := by
  induction cs generalizing mm with
  | nil => exact ⟨h1, h2⟩
  | cons c rest ih =>
    rw [List.foldl_cons]
    have hs := WFmap_stepCand mm c h1 h2
    exact ih (stepCand mm c) hs.1 hs.2

theorem WFmap_processCands (cs : List Cand) :
    WFmap (processCands cs).1 ∧ WFmap (processCands cs).2 :=
  WFmap_foldl_stepCand cs ([], []) WFmap_nil WFmap_nil

/-! ### Merging per-image maps into the running totals -/

theorem getQ_mergeIntoAux (ks : List String) (total m : QMap) (t : String)
    (hnd : ks.Nodup) (hne : ∀ k ∈ ks, k ≠ "") :
    getQ (ks.foldl (fun tt k => addToMap tt k (getQ m k)) total) t
      = getQ total t + (if t ∈ ks then getQ m t else 0) := by
  induction ks generalizing total with
  | nil => simp
  | cons k rest ih =>
    rw [List.foldl_cons,
      ih (addToMap total k (getQ m k)) hnd.of_cons
        (fun k' h => hne k' (List.mem_cons_of_mem _ h)),
      getQ_addToMap]
    by_cases ht : t = k
    · have htr : t ∉ rest := by
        rw [ht]
        exact (List.nodup_cons.mp hnd).1
      have h1 : (if t = k ∧ k ≠ "" then getQ m k else 0) = getQ m t := by
        rw [if_pos ⟨ht, hne k (List.mem_cons_self k rest)⟩, ht]
      have h2 : (if t ∈ rest then getQ m t else 0) = 0 := by rw [if_neg htr]
      have h3 : (if t ∈ k :: rest then getQ m t else 0) = getQ m t := by
        rw [if_pos (by rw [ht]; exact List.mem_cons_self k rest)]
      rw [h1, h2, h3, add_zero]
    · have h1 : (if t = k ∧ k ≠ "" then getQ m k else 0) = 0 := by
        rw [if_neg (fun hc => ht hc.1)]
      by_cases htr : t ∈ rest
      · have h3 : (if t ∈ k :: rest then getQ m t else 0) = getQ m t := by
          rw [if_pos (List.mem_cons_of_mem _ htr)]
        rw [h1, if_pos htr, h3, add_zero]
      · have h3 : (if t ∈ k :: rest then getQ m t else 0) = 0 := by
          rw [if_neg (by
            intro hc
            rcases List.mem_cons.mp hc with h | h
            · exact ht h
            · exact htr h)]
        rw [h1, if_neg htr, h3, add_zero]

theorem getQ_of_not_mem (m : QMap) (t : String) (h : t ∉ keysQ m) :
    getQ m t = 0 := by
  rw [getQ, (lookupQ_eq_none_iff m t).mpr h]
  rfl

theorem getQ_mergeInto (total m : QMap) (t : String) (hwf : WFmap m) :
    getQ (mergeInto total m) t = getQ total t + getQ m t := by
  unfold mergeInto
  rw [getQ_mergeIntoAux _ _ _ _ hwf.1 (fun k hk he => hwf.2 (he ▸ hk))]
  by_cases hm : t ∈ keysQ m
  · rw [if_pos hm]
  · rw [if_neg hm, getQ_of_not_mem m t hm]

theorem mem_keysQ_mergeIntoAux (ks : List String) (total m : QMap) (t : String)
    (hne : ∀ k ∈ ks, k ≠ "") :
    t ∈ keysQ (ks.foldl (fun tt k => addToMap tt k (getQ m k)) total)
      ↔ t ∈ keysQ total ∨ t ∈ ks := by
  induction ks generalizing total with
  | nil => simp
  | cons k rest ih =>
    rw [List.foldl_cons, ih (addToMap total k (getQ m k))
      (fun k' h => hne k' (List.mem_cons_of_mem _ h)), mem_keysQ_addToMap]
    constructor
    · rintro ((h | ⟨rfl, _⟩) | h)
      · exact Or.inl h
      · exact Or.inr (List.mem_cons_self _ _)
      · exact Or.inr (List.mem_cons_of_mem _ h)
    · rintro (h | h)
      · exact Or.inl (Or.inl h)
      · rcases List.mem_cons.mp h with rfl | h'
        · exact Or.inl (Or.inr ⟨rfl, hne t (List.mem_cons_self _ _)⟩)
        · exact Or.inr h'

theorem mem_keysQ_mergeInto (total m : QMap) (t : String) (hwf : WFmap m) :
    t ∈ keysQ (mergeInto total m) ↔ t ∈ keysQ total ∨ t ∈ keysQ m := by
  unfold mergeInto
  exact mem_keysQ_mergeIntoAux _ _ _ _ (fun k hk he => hwf.2 (he ▸ hk))

/-! ### The analysis loop -/

theorem WFmap_entryOf (p : String × FetchResult) :
    WFmap (entryOf p).countsByType ∧ WFmap (entryOf p).areaSqftByType := by
  rcases p with ⟨u, r⟩
  cases r with
  | ok j =>
    show WFmap (imageMaps j).1 ∧ WFmap (imageMaps j).2
    unfold imageMaps
    cases j.objects with
    | none => exact ⟨WFmap_nil, WFmap_nil⟩
    | some cs => exact WFmap_processCands cs
  | fail msg => exact ⟨WFmap_nil, WFmap_nil⟩

theorem analyzeLoop_entries_aux (inputs : List (String × FetchResult))
    (acc : List ImgEntry × QMap × QMap) :
    (inputs.foldl loopStep acc).1 = acc.1 ++ inputs.map entryOf := by
  induction inputs generalizing acc with
  | nil => simp
  | cons p rest ih =>
    rw [List.foldl_cons, ih (loopStep acc p), List.map_cons]
    show (acc.1 ++ [entryOf p]) ++ _ = _
    rw [List.append_assoc]
    rfl

/-- The `perImage` array records one entry per input URL, in order. -/
theorem analyzeLoop_entries (inputs : List (String × FetchResult)) :
    (analyzeLoop inputs).1 = inputs.map entryOf := by
  unfold analyzeLoop
  rw [analyzeLoop_entries_aux]
  rfl

theorem getQ_analyzeLoop_aux (inputs : List (String × FetchResult))
    (acc : List ImgEntry × QMap × QMap) (t : String) :
    getQ (inputs.foldl loopStep acc).2.1 t
        = getQ acc.2.1 t + (inputs.map (fun p => getQ (entryOf p).countsByType t)).sum
      ∧ getQ (inputs.foldl loopStep acc).2.2 t
        = getQ acc.2.2 t + (inputs.map (fun p => getQ (entryOf p).areaSqftByType t)).sum := by
  induction inputs generalizing acc with
  | nil => simp
  | cons p rest ih =>
    rw [List.foldl_cons, List.map_cons, List.sum_cons, List.map_cons, List.sum_cons]
    have h := ih (loopStep acc p)
    constructor
    · rw [h.1]
      show getQ (mergeInto acc.2.1 (entryOf p).countsByType) t + _ = _
      rw [getQ_mergeInto _ _ _ (WFmap_entryOf p).1]
      ring
    · rw [h.2]
      show getQ (mergeInto acc.2.2 (entryOf p).areaSqftByType) t + _ = _
      rw [getQ_mergeInto _ _ _ (WFmap_entryOf p).2]
      ring

/-- The total counts map is, per type, the sum of the per-image counts. -/
theorem getQ_analyzeLoop_counts (inputs : List (String × FetchResult)) (t : String) :
    getQ (analyzeLoop inputs).2.1 t
      = (inputs.map (fun p => getQ (entryOf p).countsByType t)).sum := by
  unfold analyzeLoop
  rw [(getQ_analyzeLoop_aux inputs ([], [], []) t).1]
  show getQ [] t + _ = _
  simp [getQ, lookupQ]

/-- The total area map is, per type, the sum of the per-image areas. -/
theorem getQ_analyzeLoop_area (inputs : List (String × FetchResult)) (t : String) :
    getQ (analyzeLoop inputs).2.2 t
      = (inputs.map (fun p => getQ (entryOf p).areaSqftByType t)).sum := by
  unfold analyzeLoop
  rw [(getQ_analyzeLoop_aux inputs ([], [], []) t).2]
  show getQ [] t + _ = _
  simp [getQ, lookupQ]

theorem mem_keys_analyzeLoop_aux (inputs : List (String × FetchResult))
    (acc : List ImgEntry × QMap × QMap) (t : String) :
    (t ∈ keysQ (inputs.foldl loopStep acc).2.1
        ↔ t ∈ keysQ acc.2.1 ∨ ∃ p ∈ inputs, t ∈ keysQ (entryOf p).countsByType)
      ∧ (t ∈ keysQ (inputs.foldl loopStep acc).2.2
        ↔ t ∈ keysQ acc.2.2 ∨ ∃ p ∈ inputs, t ∈ keysQ (entryOf p).areaSqftByType) := by
  induction inputs generalizing acc with
  | nil => simp
  | cons p rest ih =>
    rw [List.foldl_cons]
    have h := ih (loopStep acc p)
    constructor
    · rw [h.1]
      show t ∈ keysQ (mergeInto acc.2.1 (entryOf p).countsByType) ∨ _ ↔ _
      rw [mem_keysQ_mergeInto _ _ _ (WFmap_entryOf p).1]
      constructor
      · rintro ((h' | h') | ⟨p', hp', h'⟩)
        · exact Or.inl h'
        · exact Or.inr ⟨p, List.mem_cons_self _ _, h'⟩
        · exact Or.inr ⟨p', List.mem_cons_of_mem _ hp', h'⟩
      · rintro (h' | ⟨p', hp', h'⟩)
        · exact Or.inl (Or.inl h')
        · rcases List.mem_cons.mp hp' with rfl | hp''
          · exact Or.inl (Or.inr h')
          · exact Or.inr ⟨p', hp'', h'⟩
    · rw [h.2]
      show t ∈ keysQ (mergeInto acc.2.2 (entryOf p).areaSqftByType) ∨ _ ↔ _
      rw [mem_keysQ_mergeInto _ _ _ (WFmap_entryOf p).2]
      constructor
      · rintro ((h' | h') | ⟨p', hp', h'⟩)
        · exact Or.inl h'
        · exact Or.inr ⟨p, List.mem_cons_self _ _, h'⟩
        · exact Or.inr ⟨p', List.mem_cons_of_mem _ hp', h'⟩
      · rintro (h' | ⟨p', hp', h'⟩)
        · exact Or.inl (Or.inl h')
        · rcases List.mem_cons.mp hp' with rfl | hp''
          · exact Or.inl (Or.inr h')
          · exact Or.inr ⟨p', hp'', h'⟩

theorem mem_keys_analyzeLoop_counts (inputs : List (String × FetchResult)) (t : String) :
    t ∈ keysQ (analyzeLoop inputs).2.1
      ↔ ∃ p ∈ inputs, t ∈ keysQ (entryOf p).countsByType := by
  unfold analyzeLoop
  rw [(mem_keys_analyzeLoop_aux inputs ([], [], []) t).1]
  simp [keysQ]

theorem mem_keys_analyzeLoop_area (inputs : List (String × FetchResult)) (t : String) :
    t ∈ keysQ (analyzeLoop inputs).2.2
      ↔ ∃ p ∈ inputs, t ∈ keysQ (entryOf p).areaSqftByType := by
  unfold analyzeLoop
  rw [(mem_keys_analyzeLoop_aux inputs ([], [], []) t).2]
  simp [keysQ]

/-! ### dedupFirst -/

theorem mem_dedupFirst (l : List String) (t : String) :
    t ∈ dedupFirst l ↔ t ∈ l := by
  induction l using dedupFirst.induct with
  | case1 => simp [dedupFirst]
  | case2 k ks ih =>
    rw [dedupFirst]
    by_cases ht : t = k
    · subst ht
      simp
    · constructor
      · intro h
        rcases List.mem_cons.mp h with rfl | h'
        · exact List.mem_cons_self _ _
        · exact List.mem_cons_of_mem _ (List.mem_of_mem_filter (ih.mp h'))
      · intro h
        rcases List.mem_cons.mp h with rfl | h'
        · exact List.mem_cons_self _ _
        · exact List.mem_cons_of_mem _
            (ih.mpr (List.mem_filter.mpr ⟨h', by simpa using ht⟩))

theorem nodup_dedupFirst (l : List String) : (dedupFirst l).Nodup := by
  induction l using dedupFirst.induct with
  | case1 => simp [dedupFirst]
  | case2 k ks ih =>
    rw [dedupFirst, List.nodup_cons]
    refine ⟨?_, ih⟩
    intro hk
    have := List.of_mem_filter (mem_dedupFirst _ _ |>.mp hk)
    simp at this

/-! ### RunResult projections -/

theorem runAnalyze_perImage (rt : String) (inputs : List (String × FetchResult)) :
    (runAnalyze rt inputs).perImage = inputs.map entryOf := by
  show (analyzeLoop inputs).1 = _
  exact analyzeLoop_entries inputs

theorem runAnalyze_totalCounts (rt : String) (inputs : List (String × FetchResult)) :
    (runAnalyze rt inputs).totalCounts = (analyzeLoop inputs).2.1 := rfl

theorem runAnalyze_totalArea (rt : String) (inputs : List (String × FetchResult)) :
    (runAnalyze rt inputs).totalArea = (analyzeLoop inputs).2.2 := rfl

theorem runAnalyze_items (rt : String) (inputs : List (String × FetchResult)) :
    (runAnalyze rt inputs).items
      = (dedupFirst (keysQ (analyzeLoop inputs).2.1 ++ keysQ (analyzeLoop inputs).2.2)).map
          (fun ty => (ty, getQ (analyzeLoop inputs).2.1 ty, getQ (analyzeLoop inputs).2.2 ty)) :=
  rfl

theorem runAnalyze_items_fst (rt : String) (inputs : List (String × FetchResult)) :
    (runAnalyze rt inputs).items.map (fun it => it.1)
      = dedupFirst (keysQ (analyzeLoop inputs).2.1 ++ keysQ (analyzeLoop inputs).2.2) := by
  rw [runAnalyze_items rt inputs, List.map_map]
  have : ((fun it : String × ℚ × ℚ => it.1) ∘
      (fun ty => (ty, getQ (analyzeLoop inputs).2.1 ty, getQ (analyzeLoop inputs).2.2 ty)))
      = fun ty : String => ty := rfl
  rw [this]
  exact List.map_id _

/-! ### Claim theorems -/

/-- C1: for every run of the room aggregator over a list of per-image
measurements, the stored room aggregate is a pure sum: for every type
`t`, `aggregates.countsByType[t]` is the sum of the per-image
`countsByType[t]` values and `aggregates.areaSqftByType[t]` the sum of
the per-image `areaSqftByType[t]` values, and the `items` list has
exactly one `{type, count, sqft}` entry for each type in the union of
type keys seen across images, whose count and sqft are those sums
(`0` when a type is absent from one of the maps, via `m[t] || 0`). -/
theorem c1_room_aggregate_pure_sum (rt : String) (inputs : List (String × FetchResult)) :
    (∀ t, getQ (runAnalyze rt inputs).totalCounts t
        = ((runAnalyze rt inputs).perImage.map (fun e => getQ e.countsByType t)).sum
      ∧ getQ (runAnalyze rt inputs).totalArea t
        = ((runAnalyze rt inputs).perImage.map (fun e => getQ e.areaSqftByType t)).sum)
    ∧ ((runAnalyze rt inputs).items.map (fun it => it.1)).Nodup
    ∧ (∀ ty, ty ∈ (runAnalyze rt inputs).items.map (fun it => it.1)
        ↔ ∃ e ∈ (runAnalyze rt inputs).perImage,
            ty ∈ keysQ e.countsByType ∨ ty ∈ keysQ e.areaSqftByType)
    ∧ (runAnalyze rt inputs).items
        = ((runAnalyze rt inputs).items.map (fun it => it.1)).map
            (fun ty => (ty, getQ (runAnalyze rt inputs).totalCounts ty,
              getQ (runAnalyze rt inputs).totalArea ty)) := by
  refine ⟨fun t => ⟨?_, ?_⟩, ?_, fun ty => ?_, ?_⟩
  · rw [runAnalyze_totalCounts rt inputs, getQ_analyzeLoop_counts,
      runAnalyze_perImage rt inputs, List.map_map]
    rfl
  · rw [runAnalyze_totalArea rt inputs, getQ_analyzeLoop_area,
      runAnalyze_perImage rt inputs, List.map_map]
    rfl
  · rw [runAnalyze_items_fst rt inputs]
    exact nodup_dedupFirst _
  · rw [runAnalyze_items_fst rt inputs, mem_dedupFirst, List.mem_append,
      mem_keys_analyzeLoop_counts, mem_keys_analyzeLoop_area,
      runAnalyze_perImage rt inputs]
    constructor
    · rintro (⟨p, hp, h⟩ | ⟨p, hp, h⟩)
      · exact ⟨entryOf p, List.mem_map.mpr ⟨p, hp, rfl⟩, Or.inl h⟩
      · exact ⟨entryOf p, List.mem_map.mpr ⟨p, hp, rfl⟩, Or.inr h⟩
    · rintro ⟨e, he, h⟩
      rcases List.mem_map.mp he with ⟨p, hp, rfl⟩
      rcases h with h | h
      · exact Or.inl ⟨p, hp, h⟩
      · exact Or.inr ⟨p, hp, h⟩
  · rw [runAnalyze_items_fst rt inputs]
    exact runAnalyze_items rt inputs

/-- The acceptance rule exactly as claim C3 words it (spec mirror, for
comparison with the implementation): accept iff the tag is high, or the
canonical type is siding or foundation in an exterior scene and the tag
is medium or low. -/
def specAcceptC3 (scene : String) (k : String) (conf : Option String) : Bool :=
  (conf == some ("high")) ||
    (((k == "siding") || (k == "foundation")) && (scene == "exterior") &&
      ((conf == some ("medium")) || (conf == some ("low"))))

/-- C3 counterexample: in an interior-scene run, a siding candidate with
confidence "medium" is accepted by the code (it lands in the counts
map), while the claim's rule rejects it because the scene is not
exterior.  The code's filter never consults the scene type. -/
theorem c3_counterexample :
    (runAnalyze ("interior")
        [(("u"), .ok ⟨some [⟨some ("siding"), none, some ("medium"), .vnull, .vnull, .vnull⟩]⟩)]).totalCounts
      = [(("siding"), 1)]
    ∧ specAcceptC3 ("interior") ("siding") (some ("medium")) = false := by
  constructor
  · with_unfolding_all decide
  · decide

/-- C3 amended: the filter accepts a candidate iff its (lowercased)
confidence tag is "high", or its canonical type is siding or foundation
and the tag is "medium" or "low" — in every scene, not only exterior
ones; every other tag, including unrecognized or missing ones, is
rejected (the iff's right side is exhaustive), and a rejected candidate
contributes nothing to the per-image maps. -/
theorem c3_confidence_filter (c : Cand) :
    (acceptedCand c = true
      ↔ (confLower c = some ("high")
        ∨ ((typeKeyOf c = "siding" ∨ typeKeyOf c = "foundation")
            ∧ (confLower c = some ("medium") ∨ confLower c = some ("low")))))
    ∧ (processCands [c]).1 = (if acceptedCand c then [(typeKeyOf c, 1)] else [])
    ∧ specAcceptC3 ("exterior") (typeKeyOf c) (confLower c) = acceptedCand c := by
  refine ⟨?_, ?_, ?_⟩
  · unfold acceptedCand
    simp only [Bool.or_eq_true, Bool.and_eq_true, beq_iff_eq]
    tauto
  · show (stepCand ([], []) c).1 = _
    unfold stepCand
    by_cases ha : acceptedCand c
    · rw [if_pos ha, if_pos ha]
      show addToMap [] (typeKeyOf c) 1 = _
      unfold addToMap setQ
      rw [if_neg (typeKeyOf_ne_empty c), if_neg (by simp)]
      show [(typeKeyOf c, getQ [] (typeKeyOf c) + 1)] = _
      have hz : getQ [] (typeKeyOf c) + 1 = 1 := by
        show (0 : ℚ) + 1 = 1
        ring
      rw [hz]
    · rw [if_neg ha, if_neg ha]
  · simp only [specAcceptC3, acceptedCand]
    cases h1 : (confLower c == some ("high")) <;>
      cases h2 : (typeKeyOf c == "siding") <;>
      cases h3 : (typeKeyOf c == "foundation") <;>
      cases h4 : (confLower c == some ("medium")) <;>
      cases h5 : (confLower c == some ("low")) <;>
      simp [h1, h2, h3, h4, h5]

/-- C4 counterexample: in an interior-scene run a raw type "wall" is
still canonicalized to "siding" — the exterior synonym table is applied
for every scene type, so the claim's "do not apply when the scene type
is interior" fails. -/
theorem c4_counterexample :
    (runAnalyze ("interior")
        [(("u"), .ok ⟨some [⟨some ("wall"), none, some ("high"), .vnull, .vnull, .vnull⟩]⟩)]).totalCounts
      = [(("siding"), 1)]
    ∧ ("siding" : String) ≠ "wall" := by
  constructor
  · with_unfolding_all decide
  · decide

/-- C4 amended: the synonym table of the claim holds — wall and
cladding fold to siding, masonry_foundation and brick_foundation fold
to foundation, masonry and brick (no explicit foundation context) fold
to siding — but it is applied for every scene type: the whole analysis
run is independent of the scene-type argument, which is only forwarded
to the detection request. -/
theorem c4_synonym_folding (rt rt' : String) (inputs : List (String × FetchResult)) :
    canonicalizeKey ("wall") = "siding"
    ∧ canonicalizeKey ("cladding") = "siding"
    ∧ canonicalizeKey ("masonry_foundation") = "foundation"
    ∧ canonicalizeKey ("brick_foundation") = "foundation"
    ∧ canonicalizeKey ("masonry") = "siding"
    ∧ canonicalizeKey ("brick") = "siding"
    ∧ runAnalyze rt inputs = runAnalyze rt' inputs := by
  refine ⟨by decide, by decide, by decide, by decide, by decide, by decide, rfl⟩

/-- Two maps agree at `t` on `lookupQ` as soon as they agree on key
membership and on the defaulted value. -/
theorem lookupQ_ext_at (m m' : QMap) (t : String)
    (hmem : t ∈ keysQ m ↔ t ∈ keysQ m') (hval : getQ m t = getQ m' t) :
    lookupQ m t = lookupQ m' t := by
  by_cases hm : t ∈ keysQ m
  · have h1 : lookupQ m t ≠ none := fun he => (lookupQ_eq_none_iff m t).mp he hm
    have h2 : lookupQ m' t ≠ none := fun he => (lookupQ_eq_none_iff m' t).mp he (hmem.mp hm)
    rcases Option.ne_none_iff_exists'.mp h1 with ⟨v, hv⟩
    rcases Option.ne_none_iff_exists'.mp h2 with ⟨v', hv'⟩
    rw [hv, hv']
    rw [getQ, getQ, hv, hv'] at hval
    exact congrArg some hval
  · rw [(lookupQ_eq_none_iff m t).mpr hm,
      (lookupQ_eq_none_iff m' t).mpr (fun h => hm (hmem.mpr h))]

/-- C5: the per-image reducer is order-independent — permuting the
candidate list produces the same per-type count map and the same
per-type area map (same keys, same values). -/
theorem c5_reducer_order_independent (cs cs' : List Cand) (h : cs.Perm cs') (t : String) :
    lookupQ (processCands cs).1 t = lookupQ (processCands cs').1 t
    ∧ lookupQ (processCands cs).2 t = lookupQ (processCands cs').2 t := by
  constructor
  · apply lookupQ_ext_at
    · rw [mem_keys_processCands_fst, mem_keys_processCands_fst]
      constructor
      · rintro ⟨c, hc, hrest⟩
        exact ⟨c, h.mem_iff.mp hc, hrest⟩
      · rintro ⟨c, hc, hrest⟩
        exact ⟨c, h.mem_iff.mpr hc, hrest⟩
    · rw [getQ_processCands_fst, getQ_processCands_fst]
      exact (h.map (candCount t)).sum_eq
  · apply lookupQ_ext_at
    · rw [mem_keys_processCands_snd, mem_keys_processCands_snd]
      constructor
      · rintro ⟨c, hc, hrest⟩
        exact ⟨c, h.mem_iff.mp hc, hrest⟩
      · rintro ⟨c, hc, hrest⟩
        exact ⟨c, h.mem_iff.mpr hc, hrest⟩
    · rw [getQ_processCands_snd, getQ_processCands_snd]
      exact (h.map (candArea t)).sum_eq

/-- C5 witness: concrete two-candidate permutation. -/
theorem c5_reducer_order_independent_witness :
    lookupQ (processCands
        [⟨some ("window"), none, some ("high"), .vnum (some 10), .vnull, .vnull⟩,
         ⟨some ("door"), none, some ("high"), .vnull, .vnull, .vnull⟩]).1 ("window")
      = lookupQ (processCands
        [⟨some ("door"), none, some ("high"), .vnull, .vnull, .vnull⟩,
         ⟨some ("window"), none, some ("high"), .vnum (some 10), .vnull, .vnull⟩]).1 ("window") :=
  (c5_reducer_order_independent _ _
    (List.Perm.swap
      (⟨some ("door"), none, some ("high"), .vnull, .vnull, .vnull⟩ : Cand)
      (⟨some ("window"), none, some ("high"), .vnum (some 10), .vnull, .vnull⟩ : Cand)
      []) ("window")).1

/-- C7: for an accepted candidate, the count of its type increments by
1 and the area contribution is: the parsed `surface_area` when it
parses to a finite number; otherwise width times height when both parse
to finite numbers; otherwise zero (while the count still increments).
Non-finite numbers and non-numeric values are treated as absent by
`toNumber`. -/
theorem c7_area_resolution (c : Cand) (h : acceptedCand c = true) :
    getQ (processCands [c]).1 (typeKeyOf c) = 1
    ∧ getQ (processCands [c]).2 (typeKeyOf c)
        = (match toNumber c.surface_area with
          | some a => a
          | none =>
            match toNumber c.estimated_width_feet, toNumber c.estimated_height_feet with
            | some w, some ht => w * ht
            | _, _ => 0)
    ∧ toNumber (JsVal.vnum none) = none
    ∧ toNumber (JsVal.vstr ("Infinity")) = none := by
  refine ⟨?_, ?_, rfl, by decide⟩
  · rw [getQ_processCands_fst]
    show candCount (typeKeyOf c) c + 0 = 1
    rw [add_zero]
    unfold candCount
    rw [if_pos ⟨h, rfl⟩]
  · rw [getQ_processCands_snd]
    show candArea (typeKeyOf c) c + 0 = _
    rw [add_zero]
    unfold candArea
    rw [if_pos ⟨h, rfl⟩]
    unfold resolveArea
    match toNumber c.surface_area with
    | some a => rfl
    | none =>
      match toNumber c.estimated_width_feet, toNumber c.estimated_height_feet with
      | some w, some ht => rfl
      | some w, none => rfl
      | none, some ht => rfl
      | none, none => rfl

/-- C7 witness: no surface area, width 4 and height "5" (a numeric
string) parse, area 20. -/
theorem c7_area_resolution_witness :
    getQ (processCands
        [⟨some ("window"), none, some ("high"), .vnull, .vnum (some 4), .vstr ("5")⟩]).2
      ("window") = 20 := by
  have h := (c7_area_resolution
    ⟨some ("window"), none, some ("high"), .vnull, .vnum (some 4), .vstr ("5")⟩
    (by with_unfolding_all decide)).2.1
  have h2 : typeKeyOf
      ⟨some ("window"), none, some ("high"), .vnull, .vnum (some 4), .vstr ("5")⟩
      = "window" := by with_unfolding_all decide
  rw [h2] at h
  rw [h]
  with_unfolding_all decide

/-- C8: a fetch or detection failure for one image does not abort the
others: the failing image produces the error-marker entry with empty
maps at its position in `perImage`, every other image still produces
its normal entry, and the totals are exactly those of the run without
the failing image. -/
theorem c8_failure_isolated (rt : String) (pre post : List (String × FetchResult))
    (u e t : String) :
    (runAnalyze rt (pre ++ (u, .fail e) :: post)).perImage
        = pre.map entryOf ++ (⟨u, [], [], true⟩ : ImgEntry) :: post.map entryOf
    ∧ getQ (runAnalyze rt (pre ++ (u, .fail e) :: post)).totalCounts t
        = getQ (runAnalyze rt (pre ++ post)).totalCounts t
    ∧ getQ (runAnalyze rt (pre ++ (u, .fail e) :: post)).totalArea t
        = getQ (runAnalyze rt (pre ++ post)).totalArea t := by
  refine ⟨?_, ?_, ?_⟩
  · rw [runAnalyze_perImage, List.map_append, List.map_cons]
    rfl
  · rw [runAnalyze_totalCounts, runAnalyze_totalCounts,
      getQ_analyzeLoop_counts, getQ_analyzeLoop_counts,
      List.map_append, List.map_cons, List.sum_append, List.sum_cons,
      List.map_append, List.sum_append]
    show _ + (getQ [] t + _) = _
    rw [getQ_of_not_mem [] t (by simp [keysQ]), zero_add]
  · rw [runAnalyze_totalArea, runAnalyze_totalArea,
      getQ_analyzeLoop_area, getQ_analyzeLoop_area,
      List.map_append, List.map_cons, List.sum_append, List.sum_cons,
      List.map_append, List.sum_append]
    show _ + (getQ [] t + _) = _
    rw [getQ_of_not_mem [] t (by simp [keysQ]), zero_add]

/-- C9: if the aggregation/persistence step fails, the stored aggregate
keeps its last successfully computed value (never a partial one), and
in every case the caller observes no error. -/
theorem c9_persistence_failure_swallowed (prev : Option RunResult) (rt : String)
    (inputs : List (String × FetchResult)) :
    (analyzeTask prev rt inputs true).1 = prev
    ∧ (∀ pf, (analyzeTask prev rt inputs pf).2 = none)
    ∧ (analyzeTask prev rt inputs false).1 = some (runAnalyze rt inputs) := by
  refine ⟨rfl, ?_, rfl⟩
  intro pf
  cases pf <;> rfl

/-- C10: a type key present in an area map is present in the matching
counts map with a count of at least 1 — both per image and in the room
aggregate. -/
theorem c10_area_key_has_count (cs : List Cand) (rt : String)
    (inputs : List (String × FetchResult)) (t : String) :
    (t ∈ keysQ (processCands cs).2
      → t ∈ keysQ (processCands cs).1 ∧ 1 ≤ getQ (processCands cs).1 t)
    ∧ (t ∈ keysQ (runAnalyze rt inputs).totalArea
      → t ∈ keysQ (runAnalyze rt inputs).totalCounts
        ∧ 1 ≤ getQ (runAnalyze rt inputs).totalCounts t) := by
  have percand : ∀ (cs' : List Cand), t ∈ keysQ (processCands cs').2
      → t ∈ keysQ (processCands cs').1 ∧ 1 ≤ getQ (processCands cs').1 t := by
    intro cs' hmem
    rcases (mem_keys_processCands_snd cs' t).mp hmem with ⟨c, hc, hacc, hkey, _⟩
    constructor
    · exact (mem_keys_processCands_fst cs' t).mpr ⟨c, hc, hacc, hkey⟩
    · rw [getQ_processCands_fst]
      have hone : candCount t c = 1 := by
        unfold candCount
        rw [if_pos ⟨hacc, hkey⟩]
      calc (1 : ℚ) = candCount t c := hone.symm
        _ ≤ (cs'.map (candCount t)).sum := by
          apply List.single_le_sum
          · intro x hx
            rcases List.mem_map.mp hx with ⟨c', _, rfl⟩
            unfold candCount
            split_ifs
            · exact zero_le_one
            · exact le_refl 0
          · exact List.mem_map.mpr ⟨c, hc, rfl⟩
  refine ⟨percand cs, ?_⟩
  intro hmem
  rw [runAnalyze_totalArea] at hmem
  rcases (mem_keys_analyzeLoop_area inputs t).mp hmem with ⟨p, hp, hk⟩
  have hentry : t ∈ keysQ (entryOf p).countsByType ∧ 1 ≤ getQ (entryOf p).countsByType t := by
    rcases p with ⟨u, r⟩
    cases r with
    | ok j =>
      cases hobj : j.objects with
      | none =>
        exfalso
        revert hk
        show t ∈ keysQ (imageMaps j).2 → False
        unfold imageMaps
        rw [hobj]
        simp [keysQ]
      | some cs' =>
        have hk' : t ∈ keysQ (processCands cs').2 := by
          revert hk
          show t ∈ keysQ (imageMaps j).2 → _
          unfold imageMaps
          rw [hobj]
          exact id
        have := percand cs' hk'
        constructor
        · show t ∈ keysQ (imageMaps j).1
          unfold imageMaps
          rw [hobj]
          exact this.1
        · show 1 ≤ getQ (imageMaps j).1 t
          unfold imageMaps
          rw [hobj]
          exact this.2
    | fail msg =>
      exfalso
      revert hk
      simp [entryOf, keysQ]
  constructor
  · rw [runAnalyze_totalCounts]
    exact (mem_keys_analyzeLoop_counts inputs t).mpr ⟨p, hp, hentry.1⟩
  · rw [runAnalyze_totalCounts, getQ_analyzeLoop_counts]
    calc (1 : ℚ) ≤ getQ (entryOf p).countsByType t := hentry.2
      _ ≤ (inputs.map (fun p' => getQ (entryOf p').countsByType t)).sum := by
        apply List.single_le_sum
        · intro x hx
          rcases List.mem_map.mp hx with ⟨p', _, rfl⟩
          rcases p' with ⟨u', r'⟩
          cases r' with
          | ok j' =>
            show (0 : ℚ) ≤ getQ (imageMaps j').1 t
            unfold imageMaps
            cases j'.objects with
            | none => rw [getQ_of_not_mem [] t (by simp [keysQ])]
            | some cs' =>
              rw [getQ_processCands_fst]
              apply List.sum_nonneg
              intro y hy
              rcases List.mem_map.mp hy with ⟨c', _, rfl⟩
              unfold candCount
              split_ifs
              · exact zero_le_one
              · exact le_refl 0
          | fail msg' =>
            show (0 : ℚ) ≤ getQ ([] : QMap) t
            rw [getQ_of_not_mem [] t (by simp [keysQ])]
        · exact List.mem_map.mpr ⟨p, hp, rfl⟩

/-- C10 witness: a window with area 10 puts "window" in both maps with
count 1. -/
theorem c10_area_key_has_count_witness :
    (1 : ℚ) ≤ getQ (processCands
        [⟨some ("window"), none, some ("high"), .vnum (some 10), .vnull, .vnull⟩]).1
      ("window") :=
  ((c10_area_key_has_count
      [⟨some ("window"), none, some ("high"), .vnum (some 10), .vnull, .vnull⟩]
      ("interior") [] ("window")).1 (by with_unfolding_all decide)).2

/-! ### Idempotence of normalization and canonicalization (C6) -/

theorem char_toNat_ofNat_valid (n : Nat) (h : n < 55296) : (Char.ofNat n).toNat = n := by
  have hv : n.isValidChar := Or.inl h
  unfold Char.ofNat
  rw [dif_pos hv]
  unfold Char.ofNatAux Char.toNat
  simp [UInt32.toNat]

theorem char_toLower_idem (c : Char) : c.toLower.toLower = c.toLower := by
  unfold Char.toLower
  by_cases h : c.toNat ≥ 65 ∧ c.toNat ≤ 90
  · rw [if_pos h]
    have ht : (Char.ofNat (c.toNat + 32)).toNat = c.toNat + 32 :=
      char_toNat_ofNat_valid _ (by omega)
    rw [if_neg (by rw [ht]; omega)]
  · rw [if_neg h, if_neg h]

theorem collapseWs_mem (l : List Char) :
    ∀ x ∈ collapseWs l, isJsWs x = false ∧ (x = ('_') ∨ x ∈ l) := by
  induction l using collapseWs.induct with
  | case1 =>
    intro x hx
    rw [collapseWs] at hx
    exact absurd hx (List.not_mem_nil x)
  | case2 c rest hc ih =>
    intro x hx
    rw [collapseWs, if_pos hc] at hx
    rcases List.mem_cons.mp hx with rfl | hx'
    · exact ⟨by decide, Or.inl rfl⟩
    · rcases ih x hx' with ⟨hws, h2⟩
      refine ⟨hws, ?_⟩
      rcases h2 with h2 | h2
      · exact Or.inl h2
      · exact Or.inr (List.mem_cons_of_mem c ((List.dropWhile_sublist isJsWs).subset h2))
  | case3 c rest hc ih =>
    intro x hx
    rw [collapseWs, if_neg hc] at hx
    rcases List.mem_cons.mp hx with rfl | hx'
    · exact ⟨Bool.of_not_eq_true hc, Or.inr (List.mem_cons_self _ _)⟩
    · rcases ih x hx' with ⟨hws, h2⟩
      refine ⟨hws, ?_⟩
      rcases h2 with h2 | h2
      · exact Or.inl h2
      · exact Or.inr (List.mem_cons_of_mem c h2)

theorem dropWhile_eq_self_of_none (p : Char → Bool) (l : List Char)
    (h : ∀ c ∈ l, p c = false) : l.dropWhile p = l := by
  cases l with
  | nil => rfl
  | cons c rest =>
    rw [List.dropWhile_cons, h c (List.mem_cons_self _ _)]
    simp

theorem trimChars_eq_self (l : List Char) (h : ∀ c ∈ l, isJsWs c = false) :
    trimChars l = l := by
  unfold trimChars
  rw [dropWhile_eq_self_of_none _ _ h,
    dropWhile_eq_self_of_none _ _ (fun c hc => h c (List.mem_reverse.mp hc)),
    List.reverse_reverse]

theorem collapseWs_eq_self (l : List Char) (h : ∀ c ∈ l, isJsWs c = false) :
    collapseWs l = l := by
  induction l with
  | nil => rw [collapseWs]
  | cons c rest ih =>
    rw [collapseWs, if_neg (by rw [h c (List.mem_cons_self _ _)]; exact Bool.false_ne_true),
      ih (fun c' hc' => h c' (List.mem_cons_of_mem c hc'))]

theorem map_toLower_eq_self (l : List Char) (h : ∀ c ∈ l, c.toLower = c) :
    l.map Char.toLower = l :=
  (List.map_congr_left h).trans (List.map_id l)

theorem normalizeStr_chars (s : String) :
    ∀ x ∈ (normalizeStr s).toList, isJsWs x = false ∧ x.toLower = x := by
  intro x hx
  have hx' : x ∈ collapseWs ((trimChars s.toList).map Char.toLower) := hx
  rcases collapseWs_mem _ x hx' with ⟨hws, h2⟩
  refine ⟨hws, ?_⟩
  rcases h2 with rfl | h2
  · decide
  · rcases List.mem_map.mp h2 with ⟨y, _, rfl⟩
    exact char_toLower_idem y

theorem normalizeStr_idem (s : String) :
    normalizeStr (normalizeStr s) = normalizeStr s := by
  show String.mk (collapseWs ((trimChars (normalizeStr s).toList).map Char.toLower))
      = normalizeStr s
  rw [trimChars_eq_self _ (fun c hc => (normalizeStr_chars s c hc).1),
    map_toLower_eq_self _ (fun c hc => (normalizeStr_chars s c hc).2),
    collapseWs_eq_self _ (fun c hc => (normalizeStr_chars s c hc).1)]
  rfl

theorem normalizeStr_jsOrStr (x : Option String) (b : String)
    (hb : normalizeStr b = b) :
    normalizeStr (jsOrStr (normalizeType x) b) = jsOrStr (normalizeType x) b := by
  cases x with
  | none => exact hb
  | some s =>
    have heq : normalizeType (some s) = if s = "" then none else some (normalizeStr s) := rfl
    rw [heq]
    by_cases hs : s = ""
    · rw [if_pos hs]
      exact hb
    · rw [if_neg hs]
      have heq2 : jsOrStr (some (normalizeStr s)) b
          = if normalizeStr s = "" then b else normalizeStr s := rfl
      rw [heq2]
      by_cases hz : normalizeStr s = ""
      · rw [if_pos hz]
        exact hb
      · rw [if_neg hz]
        exact normalizeStr_idem s

theorem normalizeStr_rawKey (t n : Option String) :
    normalizeStr (rawKey t n) = rawKey t n :=
  normalizeStr_jsOrStr t _ (normalizeStr_jsOrStr n ("object") (by with_unfolding_all decide))

theorem canonicalizeKey_idem (k : String) :
    canonicalizeKey (canonicalizeKey k) = canonicalizeKey k := by
  rw [canonicalizeKey_eq k]
  split_ifs with h1 h2
  · decide
  · decide
  · rw [canonicalizeKey_eq, if_neg h1, if_neg h2]

theorem normalizeStr_canonLabel (t n : Option String) :
    normalizeStr (canonLabel t n) = canonLabel t n := by
  unfold canonLabel
  rw [canonicalizeKey_eq]
  split_ifs
  · with_unfolding_all decide
  · with_unfolding_all decide
  · exact normalizeStr_rawKey t n

theorem canonLabel_ne_empty (t n : Option String) : canonLabel t n ≠ "" :=
  canonicalizeKey_ne_empty _ (rawKey_ne_empty t n)

/-- C6: canonicalization (normalization with fallbacks followed by
synonym folding) is idempotent — feeding a label it has already
produced back through the canonicalizer returns that label unchanged,
whatever raw name is supplied alongside it. -/
theorem c6_canonicalization_idempotent (t n n' : Option String) :
    canonLabel (some (canonLabel t n)) n' = canonLabel t n := by
  have hy : canonLabel t n ≠ "" := canonLabel_ne_empty t n
  have h1 : normalizeType (some (canonLabel t n)) = some (canonLabel t n) := by
    show (if canonLabel t n = "" then none else some (normalizeStr (canonLabel t n))) = _
    rw [if_neg hy, normalizeStr_canonLabel]
  show canonicalizeKey
      (jsOrStr (normalizeType (some (canonLabel t n)))
        (jsOrStr (normalizeType n') ("object"))) = _
  rw [h1]
  show canonicalizeKey
      (if canonLabel t n = "" then jsOrStr (normalizeType n') ("object")
        else canonLabel t n) = _
  rw [if_neg hy]
  exact canonicalizeKey_idem _

/-! ### Sums over the stored per-image records (C2) -/

/-- Sum of one type's stored counts over the records whose image URL
satisfies `q`. -/
def recordsCountSumF (recs : List PerImageRecord) (q : String → Bool) (t : String) : ℚ :=
  ((recs.filter (fun r => q r.imageUrl)).map (fun r => getQ r.countsByType t)).sum

theorem recordsCountSumF_cons (r : PerImageRecord) (rest : List PerImageRecord)
    (q : String → Bool) (t : String) :
    recordsCountSumF (r :: rest) q t
      = (if q r.imageUrl then getQ r.countsByType t else 0)
        + recordsCountSumF rest q t := by
  unfold recordsCountSumF
  rw [List.filter_cons]
  by_cases hq : q r.imageUrl
  · rw [if_pos hq, if_pos hq, List.map_cons, List.sum_cons]
  · rw [if_neg hq, if_neg hq, zero_add]

theorem recordsCountSumF_append (a b : List PerImageRecord)
    (q : String → Bool) (t : String) :
    recordsCountSumF (a ++ b) q t = recordsCountSumF a q t + recordsCountSumF b q t := by
  unfold recordsCountSumF
  rw [List.filter_append, List.map_append, List.sum_append]

theorem recordsCountSumF_congr_mem (recs : List PerImageRecord)
    (q q' : String → Bool) (t : String)
    (h : ∀ r ∈ recs, q r.imageUrl = q' r.imageUrl) :
    recordsCountSumF recs q t = recordsCountSumF recs q' t := by
  unfold recordsCountSumF
  rw [List.filter_congr h]

theorem recordsCountSum_eq_F (recs : List PerImageRecord) (t : String) :
    recordsCountSum recs t = recordsCountSumF recs (fun s => true) t := by
  unfold recordsCountSum recordsCountSumF
  rw [List.filter_true]

theorem nodup_urls_upsertRecord (recs : List PerImageRecord) (u : String)
    (mm : QMap × QMap) (h : (recs.map (fun r => r.imageUrl)).Nodup) :
    ((upsertRecord recs u mm).map (fun r => r.imageUrl)).Nodup := by
  unfold upsertRecord
  by_cases ha : recs.any (fun r => r.imageUrl == u)
  · rw [if_pos ha]
    have hmap : (recs.map (fun r =>
        if r.imageUrl == u then (⟨u, mm.1, mm.2⟩ : PerImageRecord) else r)).map
          (fun r => r.imageUrl) = recs.map (fun r => r.imageUrl) := by
      rw [List.map_map]
      apply List.map_congr_left
      intro r _
      by_cases hr : r.imageUrl = u
      · simp [hr]
      · simp [hr]
    rw [hmap]
    exact h
  · rw [if_neg ha, List.map_append]
    have hu : u ∉ recs.map (fun r => r.imageUrl) := by
      intro hm
      rcases List.mem_map.mp hm with ⟨r, hr, he⟩
      exact ha (List.any_eq_true.mpr ⟨r, hr, by simp [he]⟩)
    simp [List.nodup_append, h, hu]

theorem sumF_replace (recs : List PerImageRecord) (u : String) (mm : QMap × QMap)
    (q : String → Bool) (t : String)
    (hnd : (recs.map (fun r => r.imageUrl)).Nodup)
    (hq : q u = true) (hin : u ∈ recs.map (fun r => r.imageUrl)) :
    recordsCountSumF
        (recs.map (fun r => if r.imageUrl == u then ⟨u, mm.1, mm.2⟩ else r)) q t
      = recordsCountSumF recs (fun s => q s && !(s == u)) t + getQ mm.1 t := by
  induction recs with
  | nil => simp at hin
  | cons r rest ih =>
    rw [List.map_cons] at hnd hin
    have hnd' : (rest.map (fun r => r.imageUrl)).Nodup := (List.nodup_cons.mp hnd).2
    rw [List.map_cons, recordsCountSumF_cons, recordsCountSumF_cons]
    by_cases hr : r.imageUrl = u
    · have hhead : (if r.imageUrl == u then (⟨u, mm.1, mm.2⟩ : PerImageRecord) else r)
          = ⟨u, mm.1, mm.2⟩ := by simp [hr]
      have hnotin : u ∉ rest.map (fun r => r.imageUrl) := by
        rw [← hr]
        exact (List.nodup_cons.mp hnd).1
      have hrest_id : rest.map (fun r' =>
          if r'.imageUrl == u then (⟨u, mm.1, mm.2⟩ : PerImageRecord) else r') = rest := by
        have := List.map_congr_left (l := rest)
          (f := fun r' => if r'.imageUrl == u then (⟨u, mm.1, mm.2⟩ : PerImageRecord) else r')
          (g := id) ?_
        · rw [this, List.map_id]
        · intro r' hr'
          have : r'.imageUrl ≠ u := by
            intro he
            exact hnotin (List.mem_map.mpr ⟨r', hr', he⟩)
          simp [this]
      rw [hhead, hrest_id]
      show (if q u then getQ mm.1 t else 0) + recordsCountSumF rest q t = _
      rw [if_pos hq]
      have hcond : (q r.imageUrl && !(r.imageUrl == u)) = false := by
        simp [hr]
      rw [hcond]
      have hsame : recordsCountSumF rest q t
          = recordsCountSumF rest (fun s => q s && !(s == u)) t := by
        apply recordsCountSumF_congr_mem
        intro r' hr'
        have : r'.imageUrl ≠ u := by
          intro he
          exact hnotin (List.mem_map.mpr ⟨r', hr', he⟩)
        simp [this]
      rw [hsame]
      show getQ mm.1 t + _ = (if false = true then getQ r.countsByType t else 0) + _ + _
      rw [if_neg (by simp)]
      ring
    · have hhead : (if r.imageUrl == u then (⟨u, mm.1, mm.2⟩ : PerImageRecord) else r)
          = r := by simp [hr]
      have hin' : u ∈ rest.map (fun r => r.imageUrl) := by
        rcases List.mem_cons.mp hin with h' | h'
        · exact absurd h'.symm hr
        · exact h'
      rw [hhead, ih hnd' hin']
      have hcond : (q r.imageUrl && !(r.imageUrl == u)) = q r.imageUrl := by
        simp [hr]
      rw [hcond]
      ring

theorem sumF_upsert (recs : List PerImageRecord) (u : String) (mm : QMap × QMap)
    (q : String → Bool) (t : String)
    (hnd : (recs.map (fun r => r.imageUrl)).Nodup) (hq : q u = true) :
    recordsCountSumF (upsertRecord recs u mm) q t
      = recordsCountSumF recs (fun s => q s && !(s == u)) t + getQ mm.1 t := by
  unfold upsertRecord
  by_cases ha : recs.any (fun r => r.imageUrl == u)
  · rw [if_pos ha]
    rcases List.any_eq_true.mp ha with ⟨r, hr, he⟩
    exact sumF_replace recs u mm q t hnd hq
      (List.mem_map.mpr ⟨r, hr, by simpa using he⟩)
  · rw [if_neg ha]
    have hnotin : ∀ r ∈ recs, r.imageUrl ≠ u := by
      intro r hr he
      exact ha (List.any_eq_true.mpr ⟨r, hr, by simp [he]⟩)
    rw [recordsCountSumF_append]
    have hnew : recordsCountSumF [⟨u, mm.1, mm.2⟩] q t = getQ mm.1 t := by
      rw [recordsCountSumF_cons]
      show (if q u then getQ mm.1 t else 0) + recordsCountSumF [] q t = _
      rw [if_pos hq]
      show getQ mm.1 t + 0 = _
      rw [add_zero]
    rw [hnew]
    have hsame : recordsCountSumF recs q t
        = recordsCountSumF recs (fun s => q s && !(s == u)) t := by
      apply recordsCountSumF_congr_mem
      intro r hr
      simp [hnotin r hr]
    rw [hsame]

theorem recordsSumF_fold (inputs : List (String × FetchResult))
    (recs : List PerImageRecord) (t : String)
    (hok : ∀ p ∈ inputs, p.2.isOk = true)
    (hurls : (inputs.map (fun p => p.1)).Nodup)
    (hnd : (recs.map (fun r => r.imageUrl)).Nodup) :
    recordsCountSum (inputs.foldl upStep recs) t
      = recordsCountSumF recs (fun s => !((inputs.map (fun p => p.1)).contains s)) t
        + (inputs.map (fun p => getQ (entryOf p).countsByType t)).sum := by
  induction inputs generalizing recs with
  | nil =>
    rw [recordsCountSum_eq_F]
    show recordsCountSumF recs _ t = _ + ([] : List ℚ).sum
    rw [List.sum_nil, add_zero]
    apply recordsCountSumF_congr_mem
    intro r _
    simp
  | cons p rest ih =>
    rcases p with ⟨u, r⟩
    cases r with
    | fail msg =>
      exact absurd (hok (u, .fail msg) (List.mem_cons_self _ _)) (by simp [FetchResult.isOk])
    | ok j =>
      rw [List.foldl_cons]
      have hok' : ∀ p ∈ rest, p.2.isOk = true :=
        fun p hp => hok p (List.mem_cons_of_mem _ hp)
      have hurls' : (rest.map (fun p => p.1)).Nodup := by
        rw [List.map_cons] at hurls
        exact (List.nodup_cons.mp hurls).2
      have hu_notin : u ∉ rest.map (fun p => p.1) := by
        rw [List.map_cons] at hurls
        exact (List.nodup_cons.mp hurls).1
      have hnd' : ((upStep recs (u, .ok j)).map (fun r => r.imageUrl)).Nodup :=
        nodup_urls_upsertRecord recs u (imageMaps j) hnd
      rw [ih (upStep recs (u, .ok j)) hok' hurls' hnd']
      have hqu : (!((rest.map (fun p => p.1)).contains u)) = true := by
        simp only [List.contains_eq_any_beq, List.any_eq_true, beq_iff_eq,
          Bool.not_eq_true']
        rw [List.any_eq_false]
        intro x hx
        simp only [beq_iff_eq]
        intro he
        exact hu_notin (he ▸ hx)
      have e1 := sumF_upsert recs u (imageMaps j)
        (fun s => !((rest.map (fun p => p.1)).contains s)) t hnd hqu
      show recordsCountSumF (upsertRecord recs u (imageMaps j))
          (fun s => !((rest.map (fun p => p.1)).contains s)) t
          + (rest.map (fun p => getQ (entryOf p).countsByType t)).sum = _
      rw [e1]
      have hcongr : recordsCountSumF recs
          (fun s => (fun s' => !((rest.map (fun p => p.1)).contains s')) s && !(s == u)) t
        = recordsCountSumF recs
          (fun s => !((((u, FetchResult.ok j) :: rest).map (fun p => p.1)).contains s)) t := by
        apply recordsCountSumF_congr_mem
        intro r' _
        show (!((rest.map (fun p => p.1)).contains r'.imageUrl) && !(r'.imageUrl == u))
          = !((u :: rest.map (fun p => p.1)).contains r'.imageUrl)
        cases hsu : (r'.imageUrl == u) <;>
          cases hc : (rest.map (fun p => p.1)).contains r'.imageUrl <;>
          simp_all [List.contains_cons]
      rw [hcongr]
      show recordsCountSumF recs
          (fun s => !((((u, FetchResult.ok j) :: rest).map (fun p => p.1)).contains s)) t
          + getQ (imageMaps j).1 t
          + (rest.map (fun p => getQ (entryOf p).countsByType t)).sum
        = recordsCountSumF recs
          (fun s => !((((u, FetchResult.ok j) :: rest).map (fun p => p.1)).contains s)) t
          + (getQ (imageMaps j).1 t
            + (rest.map (fun p => getQ (entryOf p).countsByType t)).sum)
      ring

/-- C2 counterexample: reachable state where the stored aggregate is
not the sum over the room's stored per-image records.  First run: image
"u" succeeds with one high-confidence window, so its record stores
`{window: 1}` and the aggregate says `{window: 1}`.  Retry run: the
same image fails; the error path writes nothing to `room_images`, so
the stale record survives, while the freshly recomputed aggregate
(which only sums the failed run's empty maps) stores a window count of
`0`.  Aggregate 0 differs from the record sum 1. -/
theorem c2_counterexample :
    getQ (applyAnalyze
        (applyAnalyze ⟨[], [], []⟩ ("interior")
          [(("u"), .ok ⟨some [⟨some ("window"), none, some ("high"), .vnull, .vnull, .vnull⟩]⟩)])
        ("interior") [(("u"), .fail ("network"))]).aggCounts ("window") = 0
    ∧ recordsCountSum (applyAnalyze
        (applyAnalyze ⟨[], [], []⟩ ("interior")
          [(("u"), .ok ⟨some [⟨some ("window"), none, some ("high"), .vnull, .vnull, .vnull⟩]⟩)])
        ("interior") [(("u"), .fail ("network"))]).records ("window") = 1 := by
  constructor
  · with_unfolding_all decide
  · with_unfolding_all decide

/-- C2 amended: a re-aggregation run always discards and replaces the
prior totals (the new aggregate is a function of this run's outcomes
alone, so retries cannot double count), and whenever every image of the
batch is analysed successfully and the batch covers all of the room's
stored records, the replaced aggregate equals the per-type sum over the
room's (updated) stored per-image records.  The unamended invariant
fails only when an image whose record was stored by an earlier run
fails on the re-aggregation: its stale record survives but is excluded
from the new totals. -/
theorem c2_reaggregation_invariant (st : RoomState) (rt : String)
    (inputs : List (String × FetchResult))
    (hnd : (st.records.map (fun r => r.imageUrl)).Nodup)
    (hcover : ∀ r ∈ st.records, r.imageUrl ∈ inputs.map (fun p => p.1))
    (hurls : (inputs.map (fun p => p.1)).Nodup)
    (hok : ∀ p ∈ inputs, p.2.isOk = true) :
    (∀ t, getQ (applyAnalyze st rt inputs).aggCounts t
        = recordsCountSum (applyAnalyze st rt inputs).records t)
    ∧ (applyAnalyze st rt inputs).aggCounts = (runAnalyze rt inputs).totalCounts := by
  refine ⟨?_, rfl⟩
  intro t
  show getQ (runAnalyze rt inputs).totalCounts t
      = recordsCountSum (inputs.foldl upStep st.records) t
  rw [recordsSumF_fold inputs st.records t hok hurls hnd]
  have hzero : recordsCountSumF st.records
      (fun s => !((inputs.map (fun p => p.1)).contains s)) t = 0 := by
    unfold recordsCountSumF
    have : st.records.filter
        (fun r => !((inputs.map (fun p => p.1)).contains r.imageUrl)) = [] := by
      rw [List.filter_eq_nil_iff]
      intro r hr
      simp [List.elem_eq_mem, hcover r hr]
    rw [this]
    rfl
  rw [hzero, zero_add, runAnalyze_totalCounts, getQ_analyzeLoop_counts]

/-- C2 witness: a room with one stored record for image "u" is
re-analysed over a batch containing exactly "u", successfully. -/
theorem c2_reaggregation_invariant_witness :
    getQ (applyAnalyze
        (⟨[⟨("u"), [(("window"), 1)], []⟩], [(("window"), 1)], []⟩ : RoomState)
        ("interior")
        [(("u"), .ok ⟨some [⟨some ("window"), none, some ("high"), .vnull, .vnull, .vnull⟩]⟩)]).aggCounts
      ("window")
    = recordsCountSum (applyAnalyze
        (⟨[⟨("u"), [(("window"), 1)], []⟩], [(("window"), 1)], []⟩ : RoomState)
        ("interior")
        [(("u"), .ok ⟨some [⟨some ("window"), none, some ("high"), .vnull, .vnull, .vnull⟩]⟩)]).records
      ("window") :=
  (c2_reaggregation_invariant
    (⟨[⟨("u"), [(("window"), 1)], []⟩], [(("window"), 1)], []⟩ : RoomState)
    ("interior")
    [(("u"), .ok ⟨some [⟨some ("window"), none, some ("high"), .vnull, .vnull, .vnull⟩]⟩)]
    (by decide) (by decide) (by decide) (by decide)).1 ("window")

end FieldVue
